import Mathlib

/-!
Shallow embedding of the `blinky` LED-driver state machine
(`src/blinky.py`, method `blinky.blinky`).

A queue item is a Python list `[period_ms, bitstream, repeat]` or
`[period_ms, bitstream, repeat, flag]`; other arities are malformed.
We model the decoded playback fields (`period` in ms as an integer,
the bitstream as a list of bits, the repeat count) in `Fields`, and a
raw queued item in `RawCmd`, whose three constructors correspond to
arity 3, arity 4, and any other arity.

The player loop keeps three mutable variables across iterations:
`cmd` (the most recently assigned command, used as `cmd_prior` at the
top of the next iteration), `cmd_save` (the one-deep save slot), and
`do_exit`.  These form `PState`.

Pin writes are observable output: playback returns the list of bit
values written (each write is followed by a hold of `period`
milliseconds, so the written list determines the whole waveform).
The non-blocking `queue.empty()` preemption checks are numbered
consecutively within one command's playback and modelled by an
environment function `pending : Nat → Bool` giving the result of the
k-th check.  Playing is potentially unbounded (repeat = -1), so the
pass loop takes fuel counting the number of passes it may still start;
running out of fuel yields the `fuelOut` marker, meaning the loop was
still running.

Python's `time.sleep` raises `ValueError` on a negative duration; the
surrounding `except` then aborts the command.  This is modelled by the
`err` result of `playBits` when `period < 0` (the write of the current
bit has already happened by then, exactly as in the source).
-/

/-- Flag value `blinky.CMD_SAVE`. -/
def CMD_SAVE : Int := 1

/-- Flag value `blinky.CMD_RESTORE`. -/
def CMD_RESTORE : Int := 2

/-- Flag value `blinky.CMD_EXIT`. -/
def CMD_EXIT : Int := -99

/-- Decoded playback fields of a command: `period = float(cmd[0])`
(kept in milliseconds, as an integer), `bitstream = list(cmd[1])`
(each bit already parsed by `int`), `rptcnt = int(cmd[2])`. -/
structure Fields where
  period : Int
  bits : List Nat
  rptcnt : Int
deriving Repr, DecidableEq

/-- A raw queued item: a list of length 3 (no flag), of length 4
(fields plus an options flag), or of any other length (malformed). -/
inductive RawCmd where
  | len3 (f : Fields)
  | len4 (f : Fields) (flag : Int)
  | badLen (n : Nat)
deriving Repr, DecidableEq

/-- The player's loop variables: `cmd` (last assigned command, `none`
before the first dequeue), `cmd_save` (the save slot, `none` = Python
`None`), `do_exit`. -/
structure PState where
  cmd : Option RawCmd
  cmdSave : Option RawCmd
  doExit : Bool
deriving Repr, DecidableEq

/-- Result marker of one run of the playback loop. -/
inductive POut where
  | preempted
  | rptDone
  | exited
  | errAbort
  | fuelOut
deriving Repr, DecidableEq

/-- Result of the `for bit in bitstream` loop: `ok writes k` when the
loop ended (completed, or broke on a pending command) having written
`writes` and consumed emptiness checks up to index `k - 1`;
`err writes` when `time.sleep` raised on a negative period. -/
inductive BitsRes where
  | ok (writes : List Nat) (k : Nat)
  | err (writes : List Nat)
deriving Repr, DecidableEq

/-- The `for bit in bitstream:` loop.  Each iteration first performs
one `queue.empty()` check (index `k`): if pending, break; otherwise
write the bit and sleep for `period` (raising when `period < 0`). -/
def playBits (period : Int) (pending : Nat → Bool) : List Nat → Nat → BitsRes
  | [], k => .ok [] k
  | b :: rest, k =>
    if pending k then .ok [] (k + 1)
    else if period < 0 then .err [b]
    else
      match playBits period pending rest (k + 1) with
      | .ok ws kf => .ok (b :: ws) kf
      | .err ws => .err (b :: ws)

/-- The `while True:` playback loop of `blinky.blinky` (lines
147-169).  Per pass: one pass-start `queue.empty()` check, then the
bit loop, then the `do_exit` check, then the repeat-count decrement
(`if rptcnt > 0: rptcnt -= 1; if rptcnt == 0: break`).  Returns the
pin writes and how the loop ended; `fuel` bounds the number of passes
that may still start. -/
def playLoop (period : Int) (bits : List Nat) (pending : Nat → Bool) :
    Nat → Int → Bool → Nat → List Nat × POut
  | 0, _, _, _ => ([], .fuelOut)
  | fuel + 1, rpt, doExit, k =>
    if pending k then ([], .preempted)
    else
      match playBits period pending bits (k + 1) with
      | .err ws => (ws, .errAbort)
      | .ok ws kf =>
        if doExit then (ws, .exited)
        else if rpt > 0 then
          if rpt - 1 = 0 then (ws, .rptDone)
          else
            let rest := playLoop period bits pending fuel (rpt - 1) doExit kf
            (ws ++ rest.1, rest.2)
        else
          let rest := playLoop period bits pending fuel rpt doExit kf
          (ws ++ rest.1, rest.2)

/-- How one outer-loop iteration ended: the command was played (with
the playback loop's result), or it was skipped by one of the three
`continue` paths (restore with nothing saved, unrecognized flag value,
wrong arity). -/
inductive Outcome where
  | played (out : POut)
  | skippedRestoreNoSave
  | skippedInvalidFlag
  | skippedBadLen
deriving Repr, DecidableEq

/-- Result of processing one dequeued command: the loop variables
afterwards, the pin writes performed, and how the iteration ended. -/
structure StepRes where
  st : PState
  writes : List Nat
  out : Outcome
deriving Repr, DecidableEq

/-- Playback fields of a raw command, when its arity admits them
(`len(cmd) == 3 or len(cmd) == 4`). -/
def fieldsOf : RawCmd → Option Fields
  | .len3 f => some f
  | .len4 f _ => some f
  | .badLen _ => none

/-- Lines 136-169: decode the (possibly substituted) command's fields
and run the playback loop, or skip when the arity is wrong. -/
def playPhase (st : PState) (c : RawCmd) (pending : Nat → Bool) (fuel : Nat) : StepRes :=
  match fieldsOf c with
  | some f =>
    let r := playLoop f.period f.bits pending fuel f.rptcnt st.doExit 0
    ⟨st, r.1, .played r.2⟩
  | none => ⟨st, [], .skippedBadLen⟩

/-- One iteration of the outer `while True:` loop of `blinky.blinky`
(lines 111-169), given the loop variables and the dequeued item
`newCmd`.  `cmd_prior` is the old `st.cmd`; `cmd` is set to `newCmd`
before the flag dispatch, and to the saved command on a successful
restore. -/
def processOne (st : PState) (newCmd : RawCmd) (pending : Nat → Bool) (fuel : Nat) : StepRes :=
  match newCmd with
  | .len4 _ flag =>
    if flag = CMD_SAVE then
      playPhase ⟨some newCmd, st.cmd, st.doExit⟩ newCmd pending fuel
    else if flag = CMD_RESTORE then
      match st.cmdSave with
      | some saved => playPhase ⟨some saved, st.cmdSave, st.doExit⟩ saved pending fuel
      | none => ⟨⟨some newCmd, st.cmdSave, st.doExit⟩, [], .skippedRestoreNoSave⟩
    else if flag = CMD_EXIT then
      playPhase ⟨some newCmd, st.cmdSave, true⟩ newCmd pending fuel
    else ⟨⟨some newCmd, st.cmdSave, st.doExit⟩, [], .skippedInvalidFlag⟩
  | .len3 _ => playPhase ⟨some newCmd, st.cmdSave, st.doExit⟩ newCmd pending fuel
  | .badLen _ => ⟨⟨some newCmd, st.cmdSave, st.doExit⟩, [], .skippedBadLen⟩

/-- `sys.exit()` was reached inside playback: the thread halts. -/
def isHalt : Outcome → Bool
  | .played .exited => true
  | _ => false

/-- Process a list of queued commands in order, each arriving only
after the previous one finished playing (no preemption: every
emptiness check sees an empty queue).  Stops at the first command
whose playback reaches `sys.exit()`; the final boolean records whether
the thread halted. -/
def runSeq (fuel : Nat) : PState → List RawCmd → List (List Nat) × PState × Bool
  | st, [] => ([], st, false)
  | st, c :: cs =>
    let r := processOne st c (fun _ => false) fuel
    if isHalt r.out then ([r.writes], r.st, true)
    else
      let rest := runSeq fuel r.st cs
      (r.writes :: rest.1, rest.2.1, rest.2.2)

/-- `n` full passes over the bitstream, concatenated. -/
def nPasses : Nat → List Nat → List Nat
  | 0, _ => []
  | n + 1, bits => bits ++ nPasses n bits

/-! ### Helper lemmas -/

/-- Any two non-positive repeat counts drive the playback loop
identically: the decrement branch fires only when `rptcnt > 0`. -/
theorem playLoop_rpt_eq_of_nonpos (period : Int) (bits : List Nat) (pending : Nat → Bool) :
    ∀ (fuel : Nat) (r r' : Int) (d : Bool) (k : Nat), r ≤ 0 → r' ≤ 0 →
      playLoop period bits pending fuel r d k = playLoop period bits pending fuel r' d k := by
  intro fuel
  induction fuel with
  | zero => intro r r' d k _ _; rfl
  | succ n ih =>
    intro r r' d k hr hr'
    simp only [playLoop]
    cases hpk : pending k with
    | true => simp
    | false =>
      simp only [Bool.false_eq_true, if_false]
      cases hb : playBits period pending bits (k + 1) with
      | err ws => rfl
      | ok ws kf =>
        cases d with
        | true => simp
        | false =>
          have h1 : ¬ r > 0 := by omega
          have h2 : ¬ r' > 0 := by omega
          simp only [Bool.false_eq_true, if_false, if_neg h1, if_neg h2]
          rw [ih r r' false kf hr hr']

/-- With no pending command and a non-negative period, the bit loop
writes the whole bitstream, consuming one check per bit. -/
theorem playBits_of_no_pending (period : Int) (hp : 0 ≤ period) :
    ∀ (bits : List Nat) (k : Nat),
      playBits period (fun _ => false) bits k = .ok bits (k + bits.length) := by
  intro bits
  induction bits with
  | nil => intro k; rfl
  | cons b rest ih =>
    intro k
    have hnp : ¬ period < 0 := by omega
    simp only [playBits, Bool.false_eq_true, if_false, if_neg hnp, ih (k + 1),
      List.length_cons]
    congr 1
    omega

/-- With the exit flag set, no pending command and a non-negative
period, one pass plays the whole bitstream and then `sys.exit()` is
reached. -/
theorem playLoop_exit_of_no_pending (period : Int) (hp : 0 ≤ period) (bits : List Nat)
    (fuel : Nat) (rpt : Int) (k : Nat) :
    playLoop period bits (fun _ => false) (fuel + 1) rpt true k = (bits, .exited) := by
  simp [playLoop, playBits_of_no_pending period hp]

/-- With a non-negative period the bit loop never raises: it returns
some `ok` result. -/
theorem playBits_ok_of_nonneg (period : Int) (hp : 0 ≤ period) (pending : Nat → Bool) :
    ∀ (bits : List Nat) (k : Nat), ∃ ws kf, playBits period pending bits k = .ok ws kf := by
  intro bits
  induction bits with
  | nil => intro k; exact ⟨[], k, rfl⟩
  | cons b rest ih =>
    intro k
    cases hpk : pending k with
    | true => exact ⟨[], k + 1, by simp [playBits, hpk]⟩
    | false =>
      obtain ⟨ws, kf, hok⟩ := ih (k + 1)
      refine ⟨b :: ws, kf, ?_⟩
      simp [playBits, hpk, if_neg (by omega : ¬ period < 0), hok]

/-- When the exit flag is down, the playback loop never reports
`exited`. -/
theorem playLoop_not_exited (period : Int) (bits : List Nat) (pending : Nat → Bool) :
    ∀ (fuel : Nat) (rpt : Int) (k : Nat),
      (playLoop period bits pending fuel rpt false k).2 ≠ .exited := by
  intro fuel
  induction fuel with
  | zero => intro rpt k h; cases h
  | succ n ih =>
    intro rpt k
    simp only [playLoop]
    cases hpk : pending k with
    | true => simp
    | false =>
      simp only [Bool.false_eq_true, if_false]
      cases hb : playBits period pending bits (k + 1) with
      | err ws => simp
      | ok ws kf =>
        by_cases hr : rpt > 0
        · by_cases hr1 : rpt - 1 = 0
          · simp [hr, hr1]
          · simp [hr, hr1]
            exact ih (rpt - 1) kf
        · simp [hr]
          exact ih rpt kf

/-- Length of `n` concatenated passes. -/
theorem nPasses_length (bits : List Nat) : ∀ n, (nPasses n bits).length = n * bits.length := by
  intro n
  induction n with
  | zero => simp [nPasses]
  | succ m ih => simp [nPasses, ih, Nat.succ_mul, Nat.add_comm]

/-- With no pending command, a non-negative period and repeat count
`m + 1 > 0`, the playback loop plays exactly `m + 1` full passes and
stops by repeat-count exhaustion, for any surplus fuel. -/
theorem playLoop_pos_count (period : Int) (hp : 0 ≤ period) (bits : List Nat) :
    ∀ (m extra k : Nat),
      playLoop period bits (fun _ => false) (extra + m + 1) ((m : Int) + 1) false k =
        (nPasses (m + 1) bits, .rptDone) := by
  intro m
  induction m with
  | zero =>
    intro extra k
    simp [playLoop, playBits_of_no_pending period hp, nPasses]
  | succ n ih =>
    intro extra k
    have harr : extra + (n + 1) + 1 = (extra + n + 1) + 1 := by omega
    rw [harr]
    generalize hF : extra + n + 1 = F
    simp only [playLoop, Bool.false_eq_true, if_false,
      playBits_of_no_pending period hp bits (k + 1)]
    have hgt : ((n + 1 : Nat) : Int) + 1 > 0 := by positivity
    have hne : ¬ ((n + 1 : Nat) : Int) + 1 - 1 = 0 := by
      push_cast
      omega
    have hsub : ((n + 1 : Nat) : Int) + 1 - 1 = ((n : Nat) : Int) + 1 := by
      push_cast
      ring
    rw [if_pos hgt, if_neg hne, hsub, ← hF, ih extra (k + 1 + bits.length)]
    simp [nPasses]

/-- With repeat `-1` and the exit flag down, the loop never ends on
its own: for any fuel it is either still running or was preempted. -/
theorem playLoop_neg_one_not_self_stop (period : Int) (hp : 0 ≤ period) (bits : List Nat)
    (pending : Nat → Bool) :
    ∀ (fuel k : Nat),
      (playLoop period bits pending fuel (-1) false k).2 = .fuelOut ∨
      (playLoop period bits pending fuel (-1) false k).2 = .preempted := by
  intro fuel
  induction fuel with
  | zero => intro k; left; rfl
  | succ n ih =>
    intro k
    simp only [playLoop]
    cases hpk : pending k with
    | true => right; simp
    | false =>
      simp only [Bool.false_eq_true, if_false]
      obtain ⟨ws, kf, hok⟩ := playBits_ok_of_nonneg period hp pending bits (k + 1)
      rw [hok]
      have hr : ¬ (-1 : Int) > 0 := by omega
      simp only [Bool.false_eq_true, if_false, if_neg hr]
      exact ih kf

/-- With repeat `-1`, the exit flag down and no pending command, the
loop consumes every amount of fuel: it runs forever. -/
theorem playLoop_neg_one_runs_forever (period : Int) (hp : 0 ≤ period) (bits : List Nat) :
    ∀ (fuel k : Nat),
      (playLoop period bits (fun _ => false) fuel (-1) false k).2 = .fuelOut := by
  intro fuel
  induction fuel with
  | zero => intro k; rfl
  | succ n ih =>
    intro k
    simp only [playLoop, Bool.false_eq_true, if_false,
      playBits_of_no_pending period hp bits (k + 1)]
    have hr : ¬ (-1 : Int) > 0 := by omega
    simp only [Bool.false_eq_true, if_false, if_neg hr]
    exact ih (k + 1 + bits.length)

/-- When the pending signal is monotone (a command, once queued, stays
queued until the player dequeues it) and is up by check `m`, the bit
loop writes only at checks strictly before `m`: at most `m - k` bits,
each check advancing the index, and it ends by check `m + 1`. -/
theorem playBits_pending_bound (period : Int) (hp : 0 ≤ period) (pending : Nat → Bool)
    (hmono : ∀ i j, i ≤ j → pending i = true → pending j = true)
    (m : Nat) (hpm : pending m = true) :
    ∀ (bits : List Nat) (k : Nat), k ≤ m →
      ∃ ws kf, playBits period pending bits k = .ok ws kf ∧
        ws.length + k ≤ kf ∧ kf ≤ m + 1 ∧ ws.length ≤ m - k := by
  intro bits
  induction bits with
  | nil =>
    intro k hk
    exact ⟨[], k, rfl, by simp only [List.length_nil]; omega,
      by omega, by simp only [List.length_nil]; omega⟩
  | cons b rest ih =>
    intro k hk
    cases hpk : pending k with
    | true =>
      exact ⟨[], k + 1, by simp [playBits, hpk],
        by simp only [List.length_nil]; omega, by omega,
        by simp only [List.length_nil]; omega⟩
    | false =>
      have hklt : k < m := by
        rcases Nat.lt_or_ge k m with h | h
        · exact h
        · rw [hmono m k h hpm] at hpk
          cases hpk
      obtain ⟨ws, kf, hok, h1, h2, h3⟩ := ih (k + 1) (by omega)
      refine ⟨b :: ws, kf, ?_, ?_, h2, ?_⟩
      · simp [playBits, hpk, if_neg (by omega : ¬ period < 0), hok]
      · simp only [List.length_cons]
        omega
      · simp only [List.length_cons]
        omega

/-!  ### Claims -/

/-- Claim C9: preemption happens only at bit-step boundaries and with
bounded latency.  The pending check runs at the start of every pass
and of every bit step (the check-index discipline of `playBits` and
`playLoop`); a pin write happens only at a check that saw no pending
command.  Hence if the pending signal is monotone (a queued command
stays queued) and is up by check index `m`, then once the player
reaches the first check at or after `m` it writes nothing further:
the whole playback performs at most `m - k` bit-holds, never cutting a
hold short (each written bit is always held the full period in the
model), and then abandons the command and returns to waiting (either
through the preemption break or, when the decrement of a positive
repeat count happens to reach zero on the cut-short pass, through the
repeat-exhaustion break - both return to the blocking dequeue). -/
theorem C9_preemption_bounded_latency (period : Int) (bits : List Nat) (pending : Nat → Bool)
    (rpt : Int) (extra k m : Nat)
    (hperiod : 0 ≤ period)
    (hmono : ∀ i j, i ≤ j → pending i = true → pending j = true)
    (hpm : pending m = true) (hk : m ≤ k + extra) :
    ((playLoop period bits pending (extra + 1) rpt false k).2 = .preempted ∨
     (playLoop period bits pending (extra + 1) rpt false k).2 = .rptDone) ∧
    (playLoop period bits pending (extra + 1) rpt false k).1.length ≤ m - k := by
  induction extra generalizing rpt k with
  | zero =>
    have hpk : pending k = true := hmono m k (by omega) hpm
    simp [playLoop, hpk]
  | succ n ih =>
    cases hpk : pending k with
    | true =>
      simp [playLoop, hpk]
    | false =>
      have hklt : k < m := by
        rcases Nat.lt_or_ge k m with h | h
        · exact h
        · rw [hmono m k h hpm] at hpk
          cases hpk
      obtain ⟨ws, kf, hok, h1, h2, h3⟩ :=
        playBits_pending_bound period hperiod pending hmono m hpm bits (k + 1) (by omega)
      generalize hF : n + 1 = F
      simp only [playLoop, hpk, Bool.false_eq_true, if_false, hok]
      by_cases hr : rpt > 0
      · by_cases hr1 : rpt - 1 = 0
        · rw [if_pos hr, if_pos hr1]
          exact ⟨Or.inr rfl, show ws.length ≤ m - k by omega⟩
        · rw [if_pos hr, if_neg hr1, ← hF]
          obtain ⟨ho, hl⟩ := ih (rpt - 1) kf (by omega)
          refine ⟨?_, ?_⟩
          · simpa using ho
          · simp only [List.length_append]
            omega
      · rw [if_neg hr, ← hF]
        obtain ⟨ho, hl⟩ := ih rpt kf (by omega)
        refine ⟨?_, ?_⟩
        · simpa using ho
        · simp only [List.length_append]
          omega

/-- Witness for claim C9 at a concrete input: a command arrives at
check index 2 while `[1,0,1]` plays with repeat 3. -/
theorem C9_witness :
    (∀ i j : Nat, i ≤ j →
        (fun i => decide (2 ≤ i)) i = true → (fun i => decide (2 ≤ i)) j = true) ∧
    (fun i => decide (2 ≤ i)) 2 = true ∧ (2 : Nat) ≤ 0 + 5 ∧
    (((playLoop 7 [1, 0, 1] (fun i => decide (2 ≤ i)) (5 + 1) 3 false 0).2 = POut.preempted ∨
      (playLoop 7 [1, 0, 1] (fun i => decide (2 ≤ i)) (5 + 1) 3 false 0).2 = POut.rptDone) ∧
     (playLoop 7 [1, 0, 1] (fun i => decide (2 ≤ i)) (5 + 1) 3 false 0).1.length ≤ 2 - 0) := by
  have hmono : ∀ i j : Nat, i ≤ j →
      (fun i => decide (2 ≤ i)) i = true → (fun i => decide (2 ≤ i)) j = true := by
    intro i j hij hi
    simp only [decide_eq_true_eq] at hi ⊢
    omega
  exact ⟨hmono, by decide, by decide,
    C9_preemption_bounded_latency 7 [1, 0, 1] (fun i => decide (2 ≤ i)) 3 5 0 2
      (by decide) hmono (by decide) (by decide)⟩

/-- Claim C1, counterexample: a valid command with `repeat = 0` and no
modifier does not stop after one pass.  With pattern `[1,0]`, period
50 and no pending command, fuel for two passes already yields the
write sequence `[1,0,1,0]` with the loop still running (`fuelOut`),
while `repeat = 1` yields `[1,0]` and returns to waiting: the
observable pin-write sequences differ, and the `repeat = 0` playback
does not return to waiting after one pass. -/
theorem C1_counterexample :
    playLoop 50 [1, 0] (fun _ => false) 2 0 false 0 = ([1, 0, 1, 0], POut.fuelOut) ∧
    playLoop 50 [1, 0] (fun _ => false) 2 1 false 0 = ([1, 0], POut.rptDone) := by
  exact ⟨rfl, rfl⟩

/-- Claim C1, amended: a command with `repeat = 0` replays the pattern
indefinitely, with behaviour identical to `repeat = -1` (stopping only
via preemption or the exit flag): the decrement branch of the playback
loop fires only for strictly positive repeat counts, so `0` is never
reached by decrementing and the loop never self-terminates. -/
theorem C1_amended_zero_replays_forever (period : Int) (bits : List Nat)
    (pending : Nat → Bool) (fuel : Nat) (d : Bool) (k : Nat) :
    playLoop period bits pending fuel 0 d k = playLoop period bits pending fuel (-1) d k :=
  playLoop_rpt_eq_of_nonpos period bits pending fuel 0 (-1) d k (by omega) (by omega)

/-- Claim C2, counterexample: a command with a negative period is not
rejected before any pin write.  For `[-5, "1", 1]` the player writes
the first bit (value 1) to the pin, and only then aborts the command
when `time.sleep(-0.005)` raises (the exception handler path,
`errAbort`). -/
theorem C2_counterexample :
    (processOne ⟨none, none, false⟩ (.len3 ⟨-5, [1], 1⟩) (fun _ => false) 1).writes = [1] ∧
    (processOne ⟨none, none, false⟩ (.len3 ⟨-5, [1], 1⟩) (fun _ => false) 1).out =
      .played .errAbort := by
  exact ⟨rfl, rfl⟩

/-- Claim C2, amended: only wrong-arity commands are rejected before
any pin write - logged and discarded, with the save slot and exit flag
unchanged, though the `cmd` variable is left holding the malformed
command.  Commands with an empty bit pattern or a negative period pass
field decoding: an empty pattern plays as empty passes without writes
or any error report, and a negative period aborts the command through
the exception handler only after the first pin write has happened. -/
theorem C2_amended_validation (st : PState) (n : Nat) (pending : Nat → Bool) (fuel : Nat) :
    processOne st (.badLen n) pending fuel =
      ⟨⟨some (.badLen n), st.cmdSave, st.doExit⟩, [], .skippedBadLen⟩ ∧
    processOne ⟨none, none, false⟩ (.len3 ⟨-5, [1], 1⟩) (fun _ => false) 1 =
      ⟨⟨some (.len3 ⟨-5, [1], 1⟩), none, false⟩, [1], .played .errAbort⟩ ∧
    processOne ⟨none, none, false⟩ (.len3 ⟨5, [], 1⟩) (fun _ => false) 1 =
      ⟨⟨some (.len3 ⟨5, [], 1⟩), none, false⟩, [], .played .rptDone⟩ := by
  exact ⟨rfl, rfl, rfl⟩

/-- Claim C3, counterexample: a Restore dequeued with an empty save
slot does not leave the previously played command in place.  With
command `A = [500, "10", 2]` just played, a failed Restore leaves the
`cmd` variable holding the Restore command itself, so the next Save
records the failed Restore command - not `A`. -/
theorem C3_counterexample :
    (processOne ⟨some (.len3 ⟨500, [1, 0], 2⟩), none, false⟩
        (.len4 ⟨0, [0], 0⟩ CMD_RESTORE) (fun _ => false) 1).st.cmd =
      some (.len4 ⟨0, [0], 0⟩ CMD_RESTORE) ∧
    some (RawCmd.len4 ⟨0, [0], 0⟩ CMD_RESTORE) ≠ some (RawCmd.len3 ⟨500, [1, 0], 2⟩) ∧
    (processOne
        (processOne ⟨some (.len3 ⟨500, [1, 0], 2⟩), none, false⟩
            (.len4 ⟨0, [0], 0⟩ CMD_RESTORE) (fun _ => false) 1).st
        (.len4 ⟨7, [1], 1⟩ CMD_SAVE) (fun _ => false) 1).st.cmdSave =
      some (.len4 ⟨0, [0], 0⟩ CMD_RESTORE) := by
  exact ⟨rfl, by decide, rfl⟩

/-- Claim C3, amended: a Restore dequeued while the save slot is empty
reports the recoverable error and is discarded without any pin write;
the save slot and exit flag are untouched, but the `cmd` variable (the
candidate for the next Save) is overwritten with the failed Restore
command itself, so a subsequent Save saves that Restore command rather
than the command that was playing before it. -/
theorem C3_amended_restore_no_save (c0 : Option RawCmd) (d0 : Bool) (d : Fields)
    (pending : Nat → Bool) (fuel : Nat) :
    processOne ⟨c0, none, d0⟩ (.len4 d CMD_RESTORE) pending fuel =
      ⟨⟨some (.len4 d CMD_RESTORE), none, d0⟩, [], .skippedRestoreNoSave⟩ := rfl

/-- Claim C4: a Save command first copies the previously assigned
command (`cmd_prior`, modelled by `st.cmd`) into the save slot and
then plays its own period/pattern/repeat fields normally: the step's
pin writes are exactly what playing the Save command's own fields
produces, so Save is record-then-play, not record-only. -/
theorem C4_save_records_then_plays (st : PState) (f : Fields)
    (pending : Nat → Bool) (fuel : Nat) :
    processOne st (.len4 f CMD_SAVE) pending fuel =
      ⟨⟨some (.len4 f CMD_SAVE), st.cmd, st.doExit⟩,
       (playLoop f.period f.bits pending fuel f.rptcnt st.doExit 0).1,
       .played (playLoop f.period f.bits pending fuel f.rptcnt st.doExit 0).2⟩ := rfl

/-- Claim C10: a repeat value strictly below `-1` (for example `-2`)
drives the playback loop exactly like `repeat = -1` - the pattern
replays indefinitely - because the repeat-count branch is taken only
when the count is strictly positive. -/
theorem C10_below_neg_one_like_neg_one (period : Int) (bits : List Nat)
    (pending : Nat → Bool) (fuel : Nat) (r : Int) (d : Bool) (k : Nat) (hr : r < -1) :
    playLoop period bits pending fuel r d k = playLoop period bits pending fuel (-1) d k :=
  playLoop_rpt_eq_of_nonpos period bits pending fuel r (-1) d k (by omega) (by omega)

/-- Witness for claim C10 at `repeat = -2`. -/
theorem C10_witness :
    (-2 : Int) < -1 ∧
    playLoop 7 [1, 0] (fun _ => false) 3 (-2) false 0 =
      playLoop 7 [1, 0] (fun _ => false) 3 (-1) false 0 :=
  ⟨by decide, C10_below_neg_one_like_neg_one 7 [1, 0] (fun _ => false) 3 (-2) false 0 (by decide)⟩

/-- A played command halts the thread only when playback reached
`sys.exit()`. -/
theorem isHalt_played_ne_exited (o : POut) (ho : o ≠ POut.exited) :
    isHalt (Outcome.played o) = false := by
  cases o with
  | preempted => rfl
  | rptDone => rfl
  | exited => exact absurd rfl ho
  | errAbort => rfl
  | fuelOut => rfl

/-- Processing any run of Restore commands while the save slot holds
the plain command `a` plays `a`'s fields each time, never halts, and
leaves the save slot still holding `a`. -/
theorem runSeq_restores (a : Fields) (fuel : Nat) :
    ∀ (ds : List Fields) (c0 : Option RawCmd),
      (runSeq fuel ⟨c0, some (.len3 a), false⟩ (ds.map fun d => .len4 d CMD_RESTORE)).1 =
        ds.map (fun _ => (playLoop a.period a.bits (fun _ => false) fuel a.rptcnt false 0).1) ∧
      (runSeq fuel ⟨c0, some (.len3 a), false⟩ (ds.map fun d => .len4 d CMD_RESTORE)).2.1.cmdSave =
        some (.len3 a) ∧
      (runSeq fuel ⟨c0, some (.len3 a), false⟩ (ds.map fun d => .len4 d CMD_RESTORE)).2.2 =
        false := by
  intro ds
  induction ds with
  | nil => intro c0; exact ⟨rfl, rfl, rfl⟩
  | cons d rest ih =>
    intro c0
    have hstep : processOne ⟨c0, some (.len3 a), false⟩ (.len4 d CMD_RESTORE)
        (fun _ => false) fuel =
        ⟨⟨some (.len3 a), some (.len3 a), false⟩,
         (playLoop a.period a.bits (fun _ => false) fuel a.rptcnt false 0).1,
         .played (playLoop a.period a.bits (fun _ => false) fuel a.rptcnt false 0).2⟩ := rfl
    have hout : (playLoop a.period a.bits (fun _ => false) fuel a.rptcnt false 0).2 ≠
        POut.exited :=
      playLoop_not_exited a.period a.bits (fun _ => false) fuel a.rptcnt 0
    obtain ⟨ih1, ih2, ih3⟩ := ih (some (.len3 a))
    simp only [List.map_cons, runSeq, hstep, isHalt_played_ne_exited _ hout,
      Bool.false_eq_true, if_false]
    exact ⟨by rw [ih1], ih2, ih3⟩

/-- Claim C5: Save/Restore round-trip.  After a plain command `A` and
then a command `B` carrying the Save modifier, the save slot holds
`A`; thereafter any number of Restore commands, each with arbitrary
dummy fields, all replay exactly `A`'s period, pattern and repeat (the
pin writes of every Restore step are those of playing `A`'s fields),
and the save slot still holds `A` afterwards: Save writes the slot and
Restore reads it without clearing it. -/
theorem C5_save_restore_round_trip (a b : Fields) (ds : List Fields)
    (c0 s0 : Option RawCmd) (fuel : Nat) :
    (processOne ((processOne ⟨c0, s0, false⟩ (.len3 a) (fun _ => false) fuel).st)
        (.len4 b CMD_SAVE) (fun _ => false) fuel).st.cmdSave = some (.len3 a) ∧
    (runSeq fuel
        ((processOne ((processOne ⟨c0, s0, false⟩ (.len3 a) (fun _ => false) fuel).st)
            (.len4 b CMD_SAVE) (fun _ => false) fuel).st)
        (ds.map fun d => .len4 d CMD_RESTORE)).1 =
      ds.map (fun _ => (playLoop a.period a.bits (fun _ => false) fuel a.rptcnt false 0).1) ∧
    (runSeq fuel
        ((processOne ((processOne ⟨c0, s0, false⟩ (.len3 a) (fun _ => false) fuel).st)
            (.len4 b CMD_SAVE) (fun _ => false) fuel).st)
        (ds.map fun d => .len4 d CMD_RESTORE)).2.1.cmdSave = some (.len3 a) ∧
    (runSeq fuel
        ((processOne ((processOne ⟨c0, s0, false⟩ (.len3 a) (fun _ => false) fuel).st)
            (.len4 b CMD_SAVE) (fun _ => false) fuel).st)
        (ds.map fun d => .len4 d CMD_RESTORE)).2.2 = false := by
  obtain ⟨h1, h2, h3⟩ := runSeq_restores a fuel ds (some (.len4 b CMD_SAVE))
  exact ⟨rfl, h1, h2, h3⟩

/-- Claim C6: an Exit-modified command plays its own fields - with no
pending command and a non-negative period the pin-write sequence of
that step is exactly the command's own pattern, so the pin settles at
the level of the pattern's last bit - and then the thread terminates:
however many further commands are queued behind it, none is processed
(the run stops after the Exit command with the halted marker set). -/
theorem C6_exit_plays_own_fields_then_halts (p : Nat) (bits : List Nat) (r : Int)
    (c0 s0 : Option RawCmd) (d0 : Bool) (rest : List RawCmd) (fuel : Nat) :
    runSeq (fuel + 1) ⟨c0, s0, d0⟩ (.len4 ⟨(p : Int), bits, r⟩ CMD_EXIT :: rest) =
      ([bits], ⟨some (.len4 ⟨(p : Int), bits, r⟩ CMD_EXIT), s0, true⟩, true) := by
  have hstep : processOne ⟨c0, s0, d0⟩ (.len4 ⟨(p : Int), bits, r⟩ CMD_EXIT)
      (fun _ => false) (fuel + 1) =
      ⟨⟨some (.len4 ⟨(p : Int), bits, r⟩ CMD_EXIT), s0, true⟩, bits, .played .exited⟩ := by
    simp only [processOne, playPhase, fieldsOf]
    rw [playLoop_exit_of_no_pending (p : Int) (Int.natCast_nonneg p) bits fuel r 0]
    norm_num [CMD_SAVE, CMD_RESTORE, CMD_EXIT]
  simp only [runSeq, hstep, isHalt, if_true]

/-- Claim C7: a valid command with repeat `n = m + 1 > 0` and no
modifier, with no preemption and no errors, plays exactly `n` full
passes - the pin-write sequence is `n` copies of the pattern in order,
`n * len(pattern)` bit-holds of the command's period - and the player
then returns to waiting for the next command (repeat exhaustion, with
the loop variables updated and no exit). -/
theorem C7_positive_repeat_exact_passes (p : Nat) (b : Nat) (bs : List Nat)
    (m extra : Nat) (c0 s0 : Option RawCmd) :
    processOne ⟨c0, s0, false⟩ (.len3 ⟨(p : Int), b :: bs, (m : Int) + 1⟩)
        (fun _ => false) (extra + m + 1) =
      ⟨⟨some (.len3 ⟨(p : Int), b :: bs, (m : Int) + 1⟩), s0, false⟩,
       nPasses (m + 1) (b :: bs), .played .rptDone⟩ ∧
    (nPasses (m + 1) (b :: bs)).length = (m + 1) * (b :: bs).length := by
  constructor
  · simp only [processOne, playPhase, fieldsOf]
    rw [playLoop_pos_count (p : Int) (Int.natCast_nonneg p) (b :: bs) m extra 0]
  · exact nPasses_length (b :: bs) (m + 1)

/-- Claim C8: with a valid command and repeat `-1`, playback never
self-terminates.  For every fuel the playback loop either is still
running (`fuelOut`) or was left through the pending-command break
(`preempted`) - never by repeat-count exhaustion, the exit flag (which
is down), or an error - and when no command ever arrives it is still
running at every fuel. -/
theorem C8_neg_one_never_self_terminates (p : Nat) (bits : List Nat) :
    (∀ (pending : Nat → Bool) (fuel k : Nat),
        (playLoop (p : Int) bits pending fuel (-1) false k).2 = POut.fuelOut ∨
        (playLoop (p : Int) bits pending fuel (-1) false k).2 = POut.preempted) ∧
    (∀ (fuel k : Nat),
        (playLoop (p : Int) bits (fun _ => false) fuel (-1) false k).2 = POut.fuelOut) :=
  ⟨fun pending fuel k =>
      playLoop_neg_one_not_self_stop (p : Int) (Int.natCast_nonneg p) bits pending fuel k,
   fun fuel k => playLoop_neg_one_runs_forever (p : Int) (Int.natCast_nonneg p) bits fuel k⟩
